import Mathlib

/-!
Shallow embedding of the colon-cancer-segmentation pipeline:
cross_validation.py (k-fold orchestration, checkpoint-on-improvement,
early stopping, per-slice validation inference, final cross-fold summary)
and src/data/loader.py (dataset adapter, blank-slice filtering, seeded
paired augmentation, collate functions).

Modelling conventions: machine floats are rationals; np.Inf (the initial
best validation loss / best 3D IoU) is Option.none; a numpy/torch array of
slices is a List; python tuples are lists.
-/

/-- Per-fold orchestrator state (cross_validation.py lines 136-144 and
244-282). valid_loss_min and valid_iou_min start at np.Inf, modelled as
none; checkpoints records, in order, the valid_loss_min values written by
save_ckp at each improving epoch. -/
structure FoldState where
  valid_loss_min : Option ℚ
  valid_iou_min : Option ℚ
  epochs_no_improve : ℕ
  checkpoints : List ℚ
deriving DecidableEq, Repr

/-- The state at the top of a fresh fold (lines 136-144): both minima at
np.Inf, counter zero, nothing checkpointed. -/
def initFoldState : FoldState := ⟨none, none, 0, []⟩

/-- The improvement test of cross_validation.py line 244:
total_valid_loss[-1] <= valid_loss_min. Any float is <= np.Inf, so a best
of none always improves; ties (loss equal to the best) also improve. -/
def improvedB (best : Option ℚ) (loss : ℚ) : Bool :=
  match best with
  | none => true
  | some b => decide (loss ≤ b)

/-- One epoch of improvement bookkeeping (lines 244-276): on improvement,
save a checkpoint, zero the no-improve counter and take the epoch's mean
validation loss and mean 3D IoU as the new valid_loss_min/valid_iou_min;
otherwise only increment the no-improve counter. -/
def epochStep (s : FoldState) (loss iou : ℚ) : FoldState :=
  if improvedB s.valid_loss_min loss then
    { valid_loss_min := some loss
      valid_iou_min := some iou
      epochs_no_improve := 0
      checkpoints := s.checkpoints ++ [loss] }
  else
    { s with epochs_no_improve := s.epochs_no_improve + 1 }

/-- The per-fold epoch loop (lines 149-280): consume the per-epoch
(mean validation loss, mean validation 3D IoU) results in order, breaking
as soon as epochs_no_improve > maxNI (line 279); the input list length is
the num_epochs budget. Returns the final state and the number of epochs
executed. -/
def runFold (maxNI : ℕ) (s : FoldState) : List (ℚ × ℚ) → FoldState × ℕ
  | [] => (s, 0)
  | e :: rest =>
    if (epochStep s e.1 e.2).epochs_no_improve > maxNI then
      (epochStep s e.1 e.2, 1)
    else
      ((runFold maxNI (epochStep s e.1 e.2) rest).1,
       (runFold maxNI (epochStep s e.1 e.2) rest).2 + 1)

/-- The sequence of line-244 improvement decisions along an epoch result
list, threading the fold state through epochStep. -/
def improvedFlags (s : FoldState) : List (ℚ × ℚ) → List Bool
  | [] => []
  | e :: rest =>
    improvedB s.valid_loss_min e.1 :: improvedFlags (epochStep s e.1 e.2) rest

/-- C1: an epoch is treated as IMPROVED exactly when its mean validation
loss is at most the best seen so far in the fold (ties improve, and the
initial infinite best always improves); on improvement the orchestrator
saves a checkpoint and zeroes the no-improve counter, otherwise it only
increments the counter; and on the loss sequence [0.5, 0.5, 0.4, 0.6]
from an infinite best, the improvement flags are
[true, true, true, false]. -/
theorem c1_improvement_rule :
    (∀ b l : ℚ, improvedB (some b) l = true ↔ l ≤ b) ∧
    (∀ l : ℚ, improvedB none l = true) ∧
    (∀ (s : FoldState) (l i : ℚ), improvedB s.valid_loss_min l = true →
      epochStep s l i = ⟨some l, some i, 0, s.checkpoints ++ [l]⟩) ∧
    (∀ (s : FoldState) (l i : ℚ), improvedB s.valid_loss_min l = false →
      epochStep s l i = { s with epochs_no_improve := s.epochs_no_improve + 1 }) ∧
    improvedFlags initFoldState [(1/2, 0), (1/2, 0), (2/5, 0), (3/5, 0)] =
      [true, true, true, false] := by
  refine ⟨?_, ?_, ?_, ?_, ?_⟩
  · intro b l; simp [improvedB]
  · intro l; rfl
  · intro s l i h; simp [epochStep, h]
  · intro s l i h; simp [epochStep, h]
  · norm_num [improvedFlags, epochStep, improvedB, initFoldState]

/-- Witness for c1_improvement_rule: a tie (loss equal to the best)
counts as an improvement. -/
theorem c1_improvement_rule_witness : improvedB (some 1) 1 = true :=
  (c1_improvement_rule.1 1 1).mpr le_rfl

/-- Helper: the epoch loop never executes more epochs than the budget
(the length of the input list). -/
theorem runFold_count_le (maxNI : ℕ) :
    ∀ (epochs : List (ℚ × ℚ)) (s : FoldState),
      (runFold maxNI s epochs).2 ≤ epochs.length := by
  intro epochs
  induction epochs with
  | nil => intro s; simp [runFold]
  | cons e rest ih =>
    intro s
    simp only [runFold]
    split
    · simp
    · simpa using Nat.succ_le_succ (ih _)

/-- Helper: when the epoch loop stops before exhausting the budget, the
final no-improve counter strictly exceeds the configured maximum. -/
theorem runFold_early_stop (maxNI : ℕ) :
    ∀ (epochs : List (ℚ × ℚ)) (s : FoldState),
      (runFold maxNI s epochs).2 < epochs.length →
      (runFold maxNI s epochs).1.epochs_no_improve > maxNI := by
  intro epochs
  induction epochs with
  | nil => intro s h; simp [runFold] at h
  | cons e rest ih =>
    intro s h
    by_cases hstop : (epochStep s e.1 e.2).epochs_no_improve > maxNI
    · simpa [runFold, if_pos hstop] using hstop
    · simp only [runFold, if_neg hstop, List.length_cons,
        Nat.add_lt_add_iff_right] at h ⊢
      exact ih _ h

/-- C3: the fold's epoch loop terminates exactly when the no-improve
counter first strictly exceeds max_epochs_no_improve or when the
num_epochs budget (the input list) is exhausted, whichever comes first;
with maximum 2 and a loss sequence that never improves after epoch 1,
exactly 4 epochs (1 + 2 + 1) execute. -/
theorem c3_early_stopping :
    (∀ (maxNI : ℕ) (s : FoldState) (epochs : List (ℚ × ℚ)),
      (runFold maxNI s epochs).2 ≤ epochs.length) ∧
    (∀ (maxNI : ℕ) (s : FoldState) (epochs : List (ℚ × ℚ)),
      (runFold maxNI s epochs).2 < epochs.length →
      (runFold maxNI s epochs).1.epochs_no_improve > maxNI) ∧
    (∀ (l0 i0 : ℚ) (rest : List (ℚ × ℚ)), 3 ≤ rest.length →
      (∀ p ∈ rest, l0 < p.1) →
      (runFold 2 initFoldState ((l0, i0) :: rest)).2 = 4) := by
  refine ⟨fun maxNI s epochs => runFold_count_le maxNI epochs s,
          fun maxNI s epochs => runFold_early_stop maxNI epochs s, ?_⟩
  intro l0 i0 rest h3 hgt
  match rest, h3 with
  | a :: b :: c :: rest, _ =>
    have ha : ¬ (a.1 ≤ l0) := not_le.mpr (hgt a (by simp))
    have hb : ¬ (b.1 ≤ l0) := not_le.mpr (hgt b (by simp))
    have hc : ¬ (c.1 ≤ l0) := not_le.mpr (hgt c (by simp))
    simp [runFold, epochStep, improvedB, initFoldState, ha, hb, hc]

/-- Witness for c3_early_stopping: on losses [0.5, 0.6, 0.7, 0.8, 0.9]
with max-no-improve 2, exactly 4 epochs run. -/
theorem c3_early_stopping_witness :
    (runFold 2 initFoldState
      [(1/2, 0), (3/5, 0), (7/10, 0), (4/5, 0), (9/10, 0)]).2 = 4 :=
  c3_early_stopping.2.2 (1/2) 0 [(3/5, 0), (7/10, 0), (4/5, 0), (9/10, 0)]
    (by norm_num)
    (by
      intro p hp
      simp only [List.mem_cons, List.not_mem_nil, or_false] at hp
      rcases hp with rfl | rfl | rfl | rfl <;> norm_num)

/-- The spec's reading of the per-fold record: the best (maximum) mean 3D
overlap score achieved over the fold's epochs. Stated from the spec's
words, for comparison with the code's valid_iou_min. -/
def specBestIou (epochs : List (ℚ × ℚ)) : ℚ :=
  (epochs.map Prod.snd).foldr max 0

/-- np.mean of the min_ious list (cross_validation.py line 291). -/
def npMean (xs : List ℚ) : ℚ := xs.sum / xs.length

/-- The variance underlying np.std at line 291; np.std reports the square
root of this value, which a rational model keeps in squared form. -/
def npVar (xs : List ℚ) : ℚ :=
  (xs.map fun x => (x - npMean xs) ^ 2).sum / xs.length

/-- Line 282: each fold appends its final valid_iou_min to min_ious. -/
def min_iousOf (maxNI : ℕ) (folds : List (List (ℚ × ℚ))) : List (Option ℚ) :=
  folds.map fun epochs => (runFold maxNI initFoldState epochs).1.valid_iou_min

/-- Lines 289-293: the final summary over the min_ious values, reported
as (mean, variance) with np.std being the square root of the variance. -/
def finalSummary (xs : List ℚ) : ℚ × ℚ := (npMean xs, npVar xs)

/-- C4 counterexample: on a fold whose epochs report
(loss, 3D IoU) = (0.5, 0.9) then (0.4, 0.3), both epochs improve the
loss, so the code records valid_iou_min = 0.3 — the score at the
best-loss epoch — while the best (maximum) 3D score of the fold is 0.9.
The recorded per-fold value is not the fold's best 3D overlap score. -/
theorem c4_counterexample :
    (runFold 10 initFoldState [(1/2, 9/10), (2/5, 3/10)]).1.valid_iou_min
      = some (3/10) ∧
    specBestIou [(1/2, 9/10), (2/5, 3/10)] = 9/10 ∧
    (runFold 10 initFoldState [(1/2, 9/10), (2/5, 3/10)]).1.valid_iou_min
      ≠ some (specBestIou [(1/2, 9/10), (2/5, 3/10)]) := by
  refine ⟨?_, ?_, ?_⟩ <;>
    norm_num [runFold, epochStep, improvedB, initFoldState, specBestIou]

/-- Helper: after running a fold, valid_loss_min and valid_iou_min either
still hold their starting values or are the (loss, 3D IoU) pair of one of
the processed epochs. -/
theorem runFold_loss_iou_paired (maxNI : ℕ) :
    ∀ (epochs : List (ℚ × ℚ)) (s : FoldState),
      ((runFold maxNI s epochs).1.valid_loss_min = s.valid_loss_min ∧
       (runFold maxNI s epochs).1.valid_iou_min = s.valid_iou_min) ∨
      ∃ p ∈ epochs,
        (runFold maxNI s epochs).1.valid_loss_min = some p.1 ∧
        (runFold maxNI s epochs).1.valid_iou_min = some p.2 := by
  intro epochs
  induction epochs with
  | nil => intro s; left; simp [runFold]
  | cons e rest ih =>
    intro s
    by_cases himp : improvedB s.valid_loss_min e.1 = true
    · have hstep : epochStep s e.1 e.2 =
          ⟨some e.1, some e.2, 0, s.checkpoints ++ [e.1]⟩ := by
        simp [epochStep, himp]
      have hstop : ¬ (epochStep s e.1 e.2).epochs_no_improve > maxNI := by
        simp [hstep]
      rcases ih (epochStep s e.1 e.2) with ⟨h1, h2⟩ | ⟨p, hp, h1, h2⟩
      · refine Or.inr ⟨e, by simp, ?_, ?_⟩
        · simp only [runFold, if_neg hstop]; rw [h1, hstep]
        · simp only [runFold, if_neg hstop]; rw [h2, hstep]
      · refine Or.inr ⟨p, by simp [hp], ?_, ?_⟩
        · simp only [runFold, if_neg hstop]; exact h1
        · simp only [runFold, if_neg hstop]; exact h2
    · have hstep1 : (epochStep s e.1 e.2).valid_loss_min = s.valid_loss_min := by
        simp [epochStep, himp]
      have hstep2 : (epochStep s e.1 e.2).valid_iou_min = s.valid_iou_min := by
        simp [epochStep, himp]
      by_cases hstop : (epochStep s e.1 e.2).epochs_no_improve > maxNI
      · refine Or.inl ⟨?_, ?_⟩
        · simp only [runFold, if_pos hstop]; exact hstep1
        · simp only [runFold, if_pos hstop]; exact hstep2
      · rcases ih (epochStep s e.1 e.2) with ⟨h1, h2⟩ | ⟨p, hp, h1, h2⟩
        · refine Or.inl ⟨?_, ?_⟩
          · simp only [runFold, if_neg hstop]; rw [h1]; exact hstep1
          · simp only [runFold, if_neg hstop]; rw [h2]; exact hstep2
        · refine Or.inr ⟨p, by simp [hp], ?_, ?_⟩
          · simp only [runFold, if_neg hstop]; exact h1
          · simp only [runFold, if_neg hstop]; exact h2

/-- Helper: a fold with at least one epoch ends with its valid_loss_min
and valid_iou_min equal to the (loss, 3D IoU) pair of one of its epochs:
the pair of the most recent loss-improving epoch. -/
theorem runFold_record_is_epoch_pair (maxNI : ℕ) (e : ℚ × ℚ)
    (rest : List (ℚ × ℚ)) :
    ∃ p ∈ (e :: rest : List (ℚ × ℚ)),
      (runFold maxNI initFoldState (e :: rest)).1.valid_loss_min = some p.1 ∧
      (runFold maxNI initFoldState (e :: rest)).1.valid_iou_min = some p.2 := by
  have hstep : epochStep initFoldState e.1 e.2 = ⟨some e.1, some e.2, 0, [e.1]⟩ := by
    simp [epochStep, improvedB, initFoldState]
  have hstop : ¬ (epochStep initFoldState e.1 e.2).epochs_no_improve > maxNI := by
    simp [hstep]
  rcases runFold_loss_iou_paired maxNI rest (epochStep initFoldState e.1 e.2) with
    ⟨h1, h2⟩ | ⟨p, hp, h1, h2⟩
  · refine ⟨e, by simp, ?_, ?_⟩
    · simp only [runFold, if_neg hstop]; rw [h1, hstep]
    · simp only [runFold, if_neg hstop]; rw [h2, hstep]
  · refine ⟨p, by simp [hp], ?_, ?_⟩
    · simp only [runFold, if_neg hstop]; exact h1
    · simp only [runFold, if_neg hstop]; exact h2

/-- C4 amended: the per-fold value recorded into min_ious is the mean 3D
overlap score observed at the checkpointed epoch — valid_iou_min is
overwritten exactly when the epoch's mean validation loss improves on the
best so far, so the recorded value is the 3D score paired with the final
best validation loss, not the maximum 3D score of the fold; the final
summary is the mean and standard deviation of these per-fold values
across folds. -/
theorem c4_amended :
    (∀ (s : FoldState) (l i : ℚ), improvedB s.valid_loss_min l = true →
      (epochStep s l i).valid_iou_min = some i) ∧
    (∀ (s : FoldState) (l i : ℚ), improvedB s.valid_loss_min l = false →
      (epochStep s l i).valid_iou_min = s.valid_iou_min) ∧
    (∀ (maxNI : ℕ) (e : ℚ × ℚ) (rest : List (ℚ × ℚ)),
      ∃ p ∈ (e :: rest : List (ℚ × ℚ)),
        (runFold maxNI initFoldState (e :: rest)).1.valid_loss_min = some p.1 ∧
        (runFold maxNI initFoldState (e :: rest)).1.valid_iou_min = some p.2) ∧
    (∀ (maxNI : ℕ) (folds : List (List (ℚ × ℚ))),
      (∀ f ∈ folds, f ≠ []) →
      ∃ vals : List ℚ, min_iousOf maxNI folds = vals.map some ∧
        finalSummary vals = (npMean vals, npVar vals)) := by
  refine ⟨?_, ?_, fun maxNI e rest => runFold_record_is_epoch_pair maxNI e rest, ?_⟩
  · intro s l i h; simp [epochStep, h]
  · intro s l i h; simp [epochStep, h]
  · intro maxNI folds hne
    induction folds with
    | nil => exact ⟨[], by simp [min_iousOf], rfl⟩
    | cons f rest ih =>
      rcases ih (fun g hg => hne g (by simp [hg])) with ⟨vals, hvals, -⟩
      have hf : f ≠ [] := hne f (by simp)
      match f, hf with
      | e :: frest, _ =>
        rcases runFold_record_is_epoch_pair maxNI e frest with ⟨p, -, -, h2⟩
        refine ⟨p.2 :: vals, ?_, rfl⟩
        simp only [min_iousOf, List.map_cons] at hvals ⊢
        rw [h2]
        exact congrArg _ hvals

/-- Witness for c4_amended: on the one-epoch fold [(0.5, 1)], the
recorded pair is that epoch's (loss, 3D IoU). -/
theorem c4_amended_witness :
    ∃ p ∈ ([((1 : ℚ)/2, (1 : ℚ))] : List (ℚ × ℚ)),
      (runFold 0 initFoldState [(1/2, 1)]).1.valid_loss_min = some p.1 ∧
      (runFold 0 initFoldState [(1/2, 1)]).1.valid_iou_min = some p.2 :=
  c4_amended.2.2.1 0 (1/2, 1) []

/-- A 3D array in the numpy layout of loader.py: val i j k is the voxel
at row i, column j, depth k; h, w, d are the extents of the three axes. -/
structure Volume where
  h : ℕ
  w : ℕ
  d : ℕ
  val : ℕ → ℕ → ℕ → ℚ

/-- Entry k of the boolean mask (label != 0).any((0, 1)) built at
loader.py line 51: true iff depth slice k of the label holds any nonzero
voxel. -/
def sliceNonBlank (v : Volume) (k : ℕ) : Bool :=
  (List.range v.h).any fun i =>
    (List.range v.w).any fun j => decide (v.val i j k ≠ 0)

/-- The depth indices kept by the boolean-mask indexing
label[:, :, non_blanks] of loader.py lines 52-53, in increasing order. -/
def nonBlankIdx (v : Volume) : List ℕ :=
  (List.range v.d).filter fun k => sliceNonBlank v k

/-- numpy boolean indexing x[:, :, mask] along the depth axis: depth k of
the result is depth idx[k] of the input, where idx lists the selected
depth indices in order. -/
def indexDepth (v : Volume) (idx : List ℕ) : Volume :=
  ⟨v.h, v.w, idx.length, fun i j k => v.val i j (idx.getD k 0)⟩

/-- loader.py line 32: self.is_train = (is_train,) stores the flag as a
one-element tuple, modelled as the one-element list [b]. -/
def storedIsTrain (b : Bool) : List Bool := [b]

/-- Python truthiness of a tuple: nonempty tuples are truthy regardless
of their contents. -/
def pyTruthy (t : List Bool) : Bool := !t.isEmpty

/-- The guard of the blank-slice filter at loader.py line 50:
self.skip_blank and self.is_train, where self.is_train is the stored
tuple. -/
def skipBlankGuard (skip_blank is_train : Bool) : Bool :=
  skip_blank && pyTruthy (storedIsTrain is_train)

/-- Lines 50-53 of loader.py: when the guard holds, drop from both the
image and the label every depth slice whose label slice is entirely
zero, using the one mask computed from the label for both volumes. -/
def applyBlankFilter (skip_blank is_train : Bool) (img label : Volume) :
    Volume × Volume :=
  if skipBlankGuard skip_blank is_train then
    (indexDepth img (nonBlankIdx label), indexDepth label (nonBlankIdx label))
  else (img, label)

/-- C10: the constructor stores is_train as the one-element tuple
(is_train,), which is truthy for every flag value including False, so the
line-50 guard collapses to skip_blank alone and the is_train flag has no
effect on whether blank-slice filtering happens. -/
theorem c10_is_train_truthy_tuple :
    (∀ b : Bool, storedIsTrain b ≠ []) ∧
    (∀ b : Bool, pyTruthy (storedIsTrain b) = true) ∧
    (∀ skip_blank is_train : Bool, skipBlankGuard skip_blank is_train = skip_blank) ∧
    (∀ (skip_blank is_train : Bool) (img label : Volume),
      applyBlankFilter skip_blank is_train img label =
        applyBlankFilter skip_blank true img label) := by
  refine ⟨?_, ?_, ?_, ?_⟩
  · intro b; simp [storedIsTrain]
  · intro b; rfl
  · intro sb it; cases sb <;> rfl
  · intro sb it img label
    simp [applyBlankFilter, skipBlankGuard, pyTruthy, storedIsTrain]

/-- A concrete 1 x 1 x 5 image volume whose depth slice k holds k + 1. -/
def exImgVolume : Volume := ⟨1, 1, 5, fun _ _ k => (k : ℚ) + 1⟩

/-- A concrete 1 x 1 x 5 label volume whose depth slices are entirely
zero exactly at indices 1 and 3. -/
def exLabelVolume : Volume :=
  ⟨1, 1, 5, fun _ _ k => if k = 1 ∨ k = 3 then 0 else 1⟩

/-- C6: with blank-slice filtering enabled, __getitem__ keeps exactly the
depth indices whose label slice holds a nonzero voxel, in increasing
(original) order, and reindexes image and label with that one index
list, so exactly the all-zero-label depths are removed from both; for the
concrete label volume with all-zero slices at indices 1 and 3, the kept
indices are [0, 2, 4]. -/
theorem c6_blank_slice_filtering (img label : Volume) (it : Bool) :
    (∀ k, k ∈ nonBlankIdx label ↔
      k < label.d ∧ ¬ (∀ i < label.h, ∀ j < label.w, label.val i j k = 0)) ∧
    List.Pairwise (· < ·) (nonBlankIdx label) ∧
    ((applyBlankFilter true it img label).1.d = (nonBlankIdx label).length ∧
     (applyBlankFilter true it img label).2.d = (nonBlankIdx label).length) ∧
    (∀ i j m,
      (applyBlankFilter true it img label).1.val i j m =
        img.val i j ((nonBlankIdx label).getD m 0) ∧
      (applyBlankFilter true it img label).2.val i j m =
        label.val i j ((nonBlankIdx label).getD m 0)) ∧
    nonBlankIdx exLabelVolume = [0, 2, 4] := by
  have hguard : skipBlankGuard true it = true := by
    cases it <;> rfl
  refine ⟨?_, ?_, ?_, ?_, ?_⟩
  · intro k
    simp only [nonBlankIdx, List.mem_filter, List.mem_range, sliceNonBlank,
      List.any_eq_true, decide_eq_true_eq]
    constructor
    · rintro ⟨hk, i, hi, j, hj, hne⟩
      refine ⟨hk, fun hall => hne ?_⟩
      exact hall i hi j hj
    · rintro ⟨hk, hnall⟩
      refine ⟨hk, ?_⟩
      push_neg at hnall
      rcases hnall with ⟨i, hi, j, hj, hne⟩
      exact ⟨i, hi, j, hj, hne⟩
  · exact (List.pairwise_lt_range _).sublist (List.filter_sublist _)
  · constructor <;> simp [applyBlankFilter, hguard, indexDepth]
  · intro i j m
    constructor <;> simp [applyBlankFilter, hguard, indexDepth]
  · decide

/-- Witness for c6_blank_slice_filtering: on the concrete volumes, depth
2 is kept because its label slice holds a nonzero voxel. -/
theorem c6_blank_slice_filtering_witness :
    (2 ∈ nonBlankIdx exLabelVolume) ↔
      2 < exLabelVolume.d ∧
      ¬ (∀ i < exLabelVolume.h, ∀ j < exLabelVolume.w,
          exLabelVolume.val i j 2 = 0) :=
  (c6_blank_slice_filtering exImgVolume exLabelVolume true).1 2

/-- itertools.chain(*data): concatenation of a list of per-volume slice
stacks into one flat list of slices. -/
def chainConcat : List (List α) → List α
  | [] => []
  | xs :: rest => xs ++ chainConcat rest

/-- Tensor.unsqueeze(1) on a stacked list of slices: each slice gains a
singleton channel dimension. -/
def unsqueeze1 (stack : List α) : List (List α) :=
  stack.map fun s => [s]

/-- custom_collate (loader.py lines 100-113): take the image component of
every batch item, flatten all their slices with itertools.chain, stack
them and insert a channel dimension; likewise for the label components. -/
def custom_collate (batch : List (List α × List α)) :
    List (List α) × List (List α) :=
  (unsqueeze1 (chainConcat (batch.map fun item => item.1)),
   unsqueeze1 (chainConcat (batch.map fun item => item.2)))

/-- Helper: flattening a list of stacks yields one slice per slice of
every stack. -/
theorem chainConcat_length (L : List (List α)) :
    (chainConcat L).length = (L.map List.length).sum := by
  induction L with
  | nil => rfl
  | cons xs rest ih => simp [chainConcat, ih]

/-- C8: train collation of N per-volume (image, label) slice-stack pairs
returns an image tensor and a label tensor, each the concatenation of all
slices of all volumes along the slice axis — total slice count the sum of
the per-volume depths — with a singleton channel dimension inserted on
every slice. -/
theorem c8_train_collation (batch : List (List α × List α)) :
    (custom_collate batch).1.length = (batch.map fun item => item.1.length).sum ∧
    (custom_collate batch).2.length = (batch.map fun item => item.2.length).sum ∧
    (custom_collate batch).1 =
      (chainConcat (batch.map fun item => item.1)).map (fun s => [s]) ∧
    (custom_collate batch).2 =
      (chainConcat (batch.map fun item => item.2)).map (fun s => [s]) := by
  refine ⟨?_, ?_, rfl, rfl⟩ <;>
  · simp only [custom_collate, unsqueeze1, List.length_map, chainConcat_length,
      List.map_map]
    rfl

/-- Chunk sizes of torch.tensor_split(x, n) along dim 0 over a length-len
tensor: the first len mod n chunks get len / n + 1 elements, the rest
len / n. -/
def chunkSizes (len n : ℕ) : List ℕ :=
  (List.range n).map fun i => if i < len % n then len / n + 1 else len / n

/-- Cut a list into consecutive chunks of the given sizes. -/
def splitBySizes : List α → List ℕ → List (List α)
  | _, [] => []
  | xs, s :: rest => xs.take s :: splitBySizes (xs.drop s) rest

/-- torch.tensor_split(x, n) along the leading dimension. -/
def tensor_split (v : List α) (n : ℕ) : List (List α) :=
  splitBySizes v (chunkSizes v.length n)

/-- The validation inference loop (cross_validation.py lines 189-196):
split the volume into image.shape[0] units with tensor_split, run the
model on each unit in order, collect the outputs in a list and stack it
back. The model argument maps one input unit to one output unit. -/
def validRestack (m : List α → List β) (v : List α) : List (List β) :=
  (tensor_split v v.length).map m

/-- Helper: splitting a length-n tensor into n chunks gives n singleton
chunks in order. -/
theorem tensor_split_length_self (v : List α) :
    tensor_split v v.length = v.map fun a => [a] := by
  have hsizes : chunkSizes v.length v.length = List.replicate v.length 1 := by
    cases hv : v.length with
    | zero => rfl
    | succ n =>
      simp [chunkSizes, Nat.mod_self, Nat.div_self (Nat.succ_pos n),
        List.eq_replicate_iff]
  rw [tensor_split, hsizes]
  clear hsizes
  induction v with
  | nil => rfl
  | cons a t ih =>
    simp only [List.length_cons, List.replicate_succ, splitBySizes,
      List.take_succ_cons, List.take_zero, List.drop_succ_cons,
      List.drop_zero, List.map_cons]
    rw [ih]

/-- Helper: flattening singleton images of a map. -/
theorem chainConcat_map_singleton (f : α → β) (v : List α) :
    chainConcat (v.map fun a => [f a]) = v.map f := by
  induction v with
  | nil => rfl
  | cons a t ih => simp [chainConcat, ih]

/-- C7: the validation loop's split/stack round trip preserves depth
order exactly: splitting a depth-n volume into n single-slice units,
applying a per-slice model g to each unit and restacking yields the
slices g applied in the original order; with the identity model the
restacked volume is the original, so a synthetic volume with slices
labeled 0, 1, 2, ... restacks to the same order. -/
theorem c7_restack_depth_order (g : α → β) (v : List α) :
    tensor_split v v.length = v.map (fun a => [a]) ∧
    chainConcat (validRestack (List.map g) v) = v.map g ∧
    chainConcat (validRestack (fun unit => unit) v) = v ∧
    chainConcat (validRestack (fun unit => unit)
      (List.range v.length)) = List.range v.length := by
  refine ⟨tensor_split_length_self v, ?_, ?_, ?_⟩
  · rw [validRestack, tensor_split_length_self, List.map_map]
    exact chainConcat_map_singleton g v
  · rw [validRestack, tensor_split_length_self, List.map_map]
    have := chainConcat_map_singleton (fun a : α => a) v
    simpa using this
  · rw [validRestack, tensor_split_length_self, List.map_map]
    simpa using chainConcat_map_singleton (fun a : ℕ => a) (List.range v.length)

/-- The k dev-index folds produced by
KFold(n_splits=k, shuffle=True, random_state=seed).split at
cross_validation.py lines 43-57: the seed-shuffled index list is cut into
k consecutive chunks, the first n mod k of them one element longer
(sklearn fold sizing, the same first-chunks-larger rule as chunkSizes). -/
def devChunks (shuffled : List ℕ) (k : ℕ) : List (List ℕ) :=
  splitBySizes shuffled (chunkSizes shuffled.length k)

/-- Helper: sum of an if-then-else ramp over range k. -/
theorem sum_ite_range (q r k : ℕ) :
    ((List.range k).map fun i => if i < r then q + 1 else q).sum =
      k * q + min r k := by
  induction k with
  | zero => simp
  | succ k ih =>
    rw [List.range_succ, List.map_append, List.sum_append]
    rcases lt_or_ge k r with h | h
    · simp only [ih, List.map_cons, List.map_nil, List.sum_cons,
        List.sum_nil, if_pos h]
      rw [min_eq_right h.le, min_eq_right h]
      ring_nf
      omega
    · simp only [ih, List.map_cons, List.map_nil, List.sum_cons,
        List.sum_nil, if_neg (not_lt.mpr h)]
      rw [min_eq_left h, min_eq_left (h.trans (Nat.le_succ k))]
      ring_nf

/-- Helper: the k fold sizes sum to the number of samples. -/
theorem chunkSizes_sum (n k : ℕ) (hk : 0 < k) : (chunkSizes n k).sum = n := by
  have hmod : n % k < k := Nat.mod_lt n hk
  rw [chunkSizes, sum_ite_range, min_eq_left hmod.le]
  exact Nat.div_add_mod n k

/-- Helper: cutting a list into chunks whose sizes cover its length and
flattening restores the list. -/
theorem flatten_splitBySizes :
    ∀ (sizes : List ℕ) (xs : List α), xs.length ≤ sizes.sum →
      (splitBySizes xs sizes).flatten = xs := by
  intro sizes
  induction sizes with
  | nil =>
    intro xs h
    have : xs = [] := List.eq_nil_of_length_eq_zero (Nat.le_zero.mp h)
    simp [this, splitBySizes]
  | cons s rest ih =>
    intro xs h
    rw [List.sum_cons] at h
    simp only [splitBySizes, List.flatten_cons]
    rw [ih (xs.drop s) (by rw [List.length_drop]; omega), List.take_append_drop]

/-- Helper: the number of chunks equals the number of sizes. -/
theorem splitBySizes_length (sizes : List ℕ) (xs : List α) :
    (splitBySizes xs sizes).length = sizes.length := by
  induction sizes generalizing xs with
  | nil => rfl
  | cons s rest ih => simp [splitBySizes, ih]

/-- C9: for every fold count k with 2 <= k and every shuffled copy of the
file index set 0..n-1, KFold produces exactly k dev chunks that are
pairwise disjoint and whose union is the full index set exactly once
(their concatenation is a permutation of range n, and each index below n
occurs in it exactly once). -/
theorem c9_kfold_partition (n k : ℕ) (shuffled : List ℕ)
    (hperm : shuffled.Perm (List.range n)) (hk : 2 ≤ k) :
    (devChunks shuffled k).length = k ∧
    List.Pairwise List.Disjoint (devChunks shuffled k) ∧
    (devChunks shuffled k).flatten.Perm (List.range n) ∧
    (∀ i, (devChunks shuffled k).flatten.count i = if i < n then 1 else 0) := by
  have hlen : shuffled.length = n := by
    simpa using hperm.length_eq
  have hflat : (devChunks shuffled k).flatten = shuffled := by
    apply flatten_splitBySizes
    rw [chunkSizes_sum shuffled.length k (by omega)]
  have hnodup : shuffled.Nodup := hperm.nodup_iff.mpr (List.nodup_range n)
  refine ⟨?_, ?_, ?_, ?_⟩
  · rw [devChunks, splitBySizes_length, chunkSizes, List.length_map,
      List.length_range]
  · have : (devChunks shuffled k).flatten.Nodup := by rw [hflat]; exact hnodup
    exact (List.nodup_flatten.mp this).2
  · rw [hflat]; exact hperm
  · intro i
    rw [hflat, hperm.count_eq]
    rcases lt_or_ge i n with h | h
    · rw [if_pos h]
      exact List.count_eq_one_of_mem (List.nodup_range n) (List.mem_range.mpr h)
    · rw [if_neg (not_lt.mpr h)]
      exact List.count_eq_zero_of_not_mem (by simp; omega)

/-- Witness for c9_kfold_partition: n = 5 indices shuffled as
[3, 0, 4, 1, 2] and k = 2 folds. -/
theorem c9_kfold_partition_witness :
    (devChunks [3, 0, 4, 1, 2] 2).length = 2 ∧
    List.Pairwise List.Disjoint (devChunks [3, 0, 4, 1, 2] 2) ∧
    (devChunks [3, 0, 4, 1, 2] 2).flatten.Perm (List.range 5) ∧
    (∀ i, (devChunks [3, 0, 4, 1, 2] 2).flatten.count i =
      if i < 5 then 1 else 0) :=
  c9_kfold_partition 5 2 [3, 0, 4, 1, 2] (by decide) (by norm_num)

/-- The random draw parameters of one RandomAffine application. angle and
scaleDraw are the geometric draws made by RandomAffine.get_params from the
ambient generator; fill is the constant fill value of the transform. -/
structure AffineParams where
  angle : ℚ
  scaleDraw : ℚ
  fill : ℚ
deriving DecidableEq, Repr

/-- RandomAffine.get_params for RandomAffine(5, scale=[lo, hi], fill=f):
draw a uniform sample for the angle in [-5, 5] and one for the scale in
[lo, hi] from the generator state, returning the parameters and the
advanced state. draw is the underlying pseudo-random step
(value in [0, 1], next state); any deterministic generator fits. -/
def randomAffineGetParams (draw : ℕ → ℚ × ℕ) (degrees lo hi fill : ℚ)
    (g : ℕ) : AffineParams × ℕ :=
  let u1 := draw g
  let u2 := draw u1.2
  (⟨-degrees + u1.1 * (2 * degrees), lo + u2.1 * (hi - lo), fill⟩, u2.2)

/-- The image transform chain of cross_validation.py lines 74-81 threaded
through the generator state: ToTensor draws nothing,
RandomAffine(5, scale=[1, 1.25], fill=-1024) draws its parameters, and
the hounsfield_clip and normalize lambdas draw nothing. Returns the
affine parameters used and the final generator state. -/
def imageChainParams (draw : ℕ → ℚ × ℕ) (g : ℕ) : AffineParams × ℕ :=
  let gToTensor := g
  let affine := randomAffineGetParams draw 5 1 (5/4) (-1024) gToTensor
  let gClip := affine.2
  let gNormalize := gClip
  (affine.1, gNormalize)

/-- The label transform chain of cross_validation.py lines 82-87 threaded
through the generator state: ToTensor draws nothing and
RandomAffine(5, scale=[1, 1.25], fill=0) draws its parameters. -/
def labelChainParams (draw : ℕ → ℚ × ℕ) (g : ℕ) : AffineParams × ℕ :=
  let gToTensor := g
  let affine := randomAffineGetParams draw 5 1 (5/4) 0 gToTensor
  (affine.1, affine.2)

/-- loader.py lines 55-64: __getitem__ draws one seed, seeds the
generators with it, runs the image transform chain, re-seeds the
generators with the same seed, and runs the label transform chain.
Returns the affine parameters consumed by each chain. -/
def getitemAffineParams (draw : ℕ → ℚ × ℕ) (seed : ℕ) :
    AffineParams × AffineParams :=
  let gImg := seed
  let img := imageChainParams draw gImg
  let gLabel := seed
  let label := labelChainParams draw gLabel
  (img.1, label.1)

/-- C5: for every generator implementation and every seed, re-seeding
with the same seed before the image chain and before the label chain
makes the geometric draws identical — the rotation and scale parameters
applied to the image equal those applied to the label — while the fill
values differ by design: image fill -1024, label fill 0. -/
theorem c5_paired_augmentation (draw : ℕ → ℚ × ℕ) (seed : ℕ) :
    (getitemAffineParams draw seed).1.angle =
      (getitemAffineParams draw seed).2.angle ∧
    (getitemAffineParams draw seed).1.scaleDraw =
      (getitemAffineParams draw seed).2.scaleDraw ∧
    (getitemAffineParams draw seed).1.fill = -1024 ∧
    (getitemAffineParams draw seed).2.fill = 0 ∧
    (getitemAffineParams draw seed).1.fill ≠
      (getitemAffineParams draw seed).2.fill := by
  refine ⟨rfl, rfl, rfl, rfl, ?_⟩
  simp only [getitemAffineParams, imageChainParams, labelChainParams,
    randomAffineGetParams]
  norm_num

/-- Modelled from the spec: the train dataset class that
cross_validation.py instantiates at lines 66-88 (with downsample, shuffle
and upsample arguments) and whose reset_counters method it calls at line
162 is not among the provided sources — the provided CustomDataLoader has
a different constructor signature and no reset_counters method, and the
imported CustomValidLoader and valid_collate are likewise absent. Per the
spec, the train adapter keeps an internal per-epoch cursor/counter that
reset_counters() returns to its initial value. -/
structure TrainAdapterState where
  counter : ℕ
  counterInit : ℕ
deriving DecidableEq, Repr

/-- Modelled from the spec: reset_counters() sets the adapter's internal
cursor/counter back to its initial value; it is a total operation and so
never fails. -/
def reset_counters (a : TrainAdapterState) : TrainAdapterState :=
  { a with counter := a.counterInit }

/-- Events of the orchestrator's training section of one epoch. -/
inductive LoopEvent
  | resetCall
  | trainBatch
deriving DecidableEq, Repr

/-- The training section of one epoch of the orchestrator
(cross_validation.py lines 160-180): line 162 calls
train_dataset.reset_counters() once, before the nBatches iterations of
the training loop. -/
def epochTrainEvents (nBatches : ℕ) : List LoopEvent :=
  LoopEvent.resetCall :: List.replicate nBatches LoopEvent.trainBatch

/-- The per-epoch event traces of the whole epoch loop (lines 149-216):
every epoch runs the same training section. -/
def foldEpochTraces (nBatches nEpochs : ℕ) : List (List LoopEvent) :=
  List.replicate nEpochs (epochTrainEvents nBatches)

/-- C2: the orchestrator calls reset_counters exactly once per epoch, as
the first action of the epoch's training section, on every one of the
nEpochs epochs, and the call always succeeds, returning the adapter with
its counter reset to its initial value. -/
theorem c2_reset_counters_once_per_epoch (nBatches nEpochs : ℕ) :
    (foldEpochTraces nBatches nEpochs).length = nEpochs ∧
    (∀ tr ∈ foldEpochTraces nBatches nEpochs,
      tr.count LoopEvent.resetCall = 1 ∧ tr.head? = some LoopEvent.resetCall) ∧
    (∀ a : TrainAdapterState,
      (reset_counters a).counter = a.counterInit ∧
      (reset_counters a).counterInit = a.counterInit) := by
  refine ⟨by simp [foldEpochTraces], ?_, fun a => ⟨rfl, rfl⟩⟩
  intro tr htr
  have h : tr = epochTrainEvents nBatches := List.eq_of_mem_replicate htr
  subst h
  constructor
  · simp [epochTrainEvents, List.count_cons, List.count_replicate]
  · rfl

/-- Witness for c2_reset_counters_once_per_epoch: with 2 batches and 1
epoch, the single epoch trace starts with the one reset call. -/
theorem c2_reset_counters_once_per_epoch_witness :
    (epochTrainEvents 2).count LoopEvent.resetCall = 1 ∧
    (epochTrainEvents 2).head? = some LoopEvent.resetCall :=
  (c2_reset_counters_once_per_epoch 2 1).2.1 (epochTrainEvents 2)
    (by simp [foldEpochTraces])
